import Mathlib

/-!
# Verification of `RedBlackTree.cpp`

A shallow embedding of the red-black tree implementation in
`src/RedBlackTree.cpp`. Heap nodes (`RBTNode`: `data`, `color`, `left`,
`right`, `parent`) are embedded as a pure inductive tree `RBNode`; the
`parent` back-pointer, which the source keeps as the exact inverse of the
owning child links, is represented by a zipper path (`UpPath`) whenever the
algorithm walks upward (`InsertFixUp`) — the zipper is the standard pure
rendering of a parent-linked tree whose back-references are consistent.
Null-pointer dereferences (undefined behaviour in the source) are embedded
as `Option.none` outcomes; C++ exceptions are embedded as `Except.error`
carrying the exact `what()` string.

The class header `RedBlackTree.h` is not part of the sources; following the
spec's data model, a freshly allocated `RBTNode` has both children absent
(the constructors in the `.cpp` never set `left`/`right` on new nodes, and
the spec's single-value constructor is "one node holding the given key").
The `IsNullNode` flag copied by `CopyOf` is inert in every code path of the
`.cpp` and is omitted from the embedding.
-/

/-- Node colors, `COLOR_RED` / `COLOR_BLACK` in the source. -/
inductive Color where
  | red : Color
  | black : Color
deriving DecidableEq

/-- A (sub)tree of `RBTNode`s: absent child (`nullptr`) or a node with a
color, left child, `data` key, and right child. -/
inductive RBNode where
  | nil : RBNode
  | node (c : Color) (l : RBNode) (d : Int) (r : RBNode) : RBNode
deriving DecidableEq

namespace RBNode

/-- The color a child slot presents to red-black checks: an absent child
counts as BLACK, a node presents its `color` field. -/
def rootCol : RBNode → Color
  | nil => Color.black
  | node c _ _ _ => c

/-- In-order list of keys stored in a subtree. -/
def inorder : RBNode → List Int
  | nil => []
  | node _ l d r => inorder l ++ d :: inorder r

/-- In-order list of (key, color) pairs of a subtree. -/
def inorderPairs : RBNode → List (Int × Color)
  | nil => []
  | node c l d r => inorderPairs l ++ (d, c) :: inorderPairs r

/-- The contribution of a node of color `c` to a path's BLACK count. -/
def colVal : Color → Nat
  | Color.red => 0
  | Color.black => 1

/-- Black-height of a subtree: the number of BLACK nodes on a downward path
to an absent-child slot, provided every such path through every node agrees
(`none` when some node has two downward paths with differing BLACK
counts). -/
def bh : RBNode → Option Nat
  | nil => some 0
  | node c l _ r =>
    (bh l).bind fun a => if bh r = some a then some (a + colVal c) else none

/-- No RED node has a RED child anywhere in the subtree. -/
def noRR : RBNode → Bool
  | nil => true
  | node Color.black l _ r => noRR l && noRR r
  | node Color.red l _ r =>
    decide (rootCol l = Color.black) && decide (rootCol r = Color.black) &&
      noRR l && noRR r

/-- Paint the root of a subtree BLACK (`n->color = COLOR_BLACK` on a
non-null `n`; painting `nil` is never performed by the source and is a
no-op here). -/
def blacken : RBNode → RBNode
  | nil => nil
  | node _ l d r => node Color.black l d r

/-- `RedBlackTree::Get`: BST descent returning the subtree rooted at the
node holding `data`, or `none` (the source returns the node pointer or
`nullptr`). -/
def get : RBNode → Int → Option RBNode
  | nil, _ => none
  | node c l d r, k =>
    if k = d then some (node c l d r)
    else if k < d then get l k
    else get r k

/-- The `GetMin` descent: follow `left` links from a node to the leftmost
key (`none` exactly when starting from an absent root). -/
def leftmost : RBNode → Option Int
  | nil => none
  | node _ nil d _ => some d
  | node _ (node c' l' d' r') _ _ => leftmost (node c' l' d' r')

/-- The `GetMax` descent: follow `right` links to the rightmost key. -/
def rightmost : RBNode → Option Int
  | nil => none
  | node _ _ d nil => some d
  | node _ _ _ (node c' l' d' r') => rightmost (node c' l' d' r')

/-- `RedBlackTree::GetColorString` on a non-null node. -/
def colorString : Color → String
  | Color.red => "R"
  | Color.black => "B"

/-- `RedBlackTree::GetNodeString`: `" " + color + to_string(data) + " "`. -/
def nodeString (p : Int × Color) : String :=
  " " ++ colorString p.2 ++ toString p.1 ++ " "

/-- `RedBlackTree::ToInfixString`. -/
def toInfixString : RBNode → String
  | nil => ""
  | node c l d r => toInfixString l ++ nodeString (d, c) ++ toInfixString r

/-- `RedBlackTree::ToPrefixString`. -/
def toPrefixString : RBNode → String
  | nil => ""
  | node c l d r => nodeString (d, c) ++ toPrefixString l ++ toPrefixString r

/-- `RedBlackTree::ToPostfixString`. -/
def toPostfixString : RBNode → String
  | nil => ""
  | node c l d r => toPostfixString l ++ toPostfixString r ++ nodeString (d, c)

/-- `RedBlackTree::CopyOf`: recursively duplicate a node graph, copying
`data` and `color` and rebuilding the children (the source additionally
rewires the copies' parent back-references to the fresh parents, which the
pure tree carries implicitly). -/
def copyOf : RBNode → RBNode
  | nil => nil
  | node c l d r => node c (copyOf l) d (copyOf r)

/-- `RedBlackTree::LeftRotate` viewed at the subtree it restructures: the
pivot's right child is promoted, the pivot becomes its left child, and the
promoted child's former left subtree is transplanted to the pivot's right
slot; no `color` field is written. `none` embeds the null dereference the
source performs when the pivot has no right child. -/
def leftRotate : RBNode → Option RBNode
  | node c a x (node rc b y t) => some (node rc (node c a x b) y t)
  | _ => none

/-- `RedBlackTree::RightRotate`, mirror of `leftRotate`. -/
def rightRotate : RBNode → Option RBNode
  | node c (node lc t y b) x a => some (node lc t y (node c b x a))
  | _ => none

end RBNode

open RBNode

/-- The chain of parent back-references from a focused node up to the root,
with each step recording the parent's color and key, the sibling subtree,
and which child slot the focus occupies. `UpPath.isLeft c d sib p` says the
focus is the `left` child of a node colored `c` with key `d` whose `right`
child is `sib`; `UpPath.isRight` is the mirror. -/
inductive UpPath where
  | root : UpPath
  | isLeft (c : Color) (d : Int) (sib : RBNode) (p : UpPath) : UpPath
  | isRight (c : Color) (d : Int) (sib : RBNode) (p : UpPath) : UpPath

namespace UpPath

/-- Rebuild the whole tree from a focused subtree and its path. -/
def plug : RBNode → UpPath → RBNode
  | t, root => t
  | t, isLeft c d sib p => plug (RBNode.node c t d sib) p
  | t, isRight c d sib p => plug (RBNode.node c sib d t) p

/-- The color of the focus's parent (`BLACK` when the focus is the root;
the source never reads the parent color in that case thanks to the
short-circuit `node != root &&`). -/
def pcol : UpPath → Color
  | root => Color.black
  | isLeft c _ _ _ => c
  | isRight c _ _ _ => c

/-- Keys stored in the path strictly to the left of the focus. -/
def ctxL : UpPath → List Int
  | root => []
  | isLeft _ _ _ p => ctxL p
  | isRight _ d sib p => ctxL p ++ inorder sib ++ [d]

/-- Keys stored in the path strictly to the right of the focus. -/
def ctxR : UpPath → List Int
  | root => []
  | isLeft _ d sib p => d :: inorder sib ++ ctxR p
  | isRight _ _ _ p => ctxR p

/-- Black-height of the whole tree given that the subtree in the focus slot
has black-height `h` (`none` when some sibling along the path disagrees). -/
def pbh : UpPath → Nat → Option Nat
  | root, h => some h
  | isLeft c _ sib p, h | isRight c _ sib p, h =>
    if bh sib = some h then pbh p (h + colVal c) else none

/-- The no-red-red facts contributed by the path alone: every sibling
hanging off the path is internally red-red-free, and every RED node on the
path has a BLACK parent and a BLACK sibling-side child. (The edge from the
innermost path node down to the focus is deliberately not constrained:
during fix-up it is the one edge that may be red-red.) -/
def pathRR : UpPath → Prop
  | root => True
  | isLeft c _ sib p | isRight c _ sib p =>
    noRR sib = true ∧ pathRR p ∧
      (c = Color.red → rootCol sib = Color.black ∧ pcol p = Color.black)

/-- The color of the outermost frame of the path — i.e. of the root of the
tree the path is embedded in (BLACK for the empty path). -/
def lastCol : UpPath → Color
  | root => Color.black
  | isLeft c _ _ root => c
  | isRight c _ _ root => c
  | isLeft _ _ _ (isLeft c2 d2 s2 p2) => lastCol (isLeft c2 d2 s2 p2)
  | isLeft _ _ _ (isRight c2 d2 s2 p2) => lastCol (isRight c2 d2 s2 p2)
  | isRight _ _ _ (isLeft c2 d2 s2 p2) => lastCol (isLeft c2 d2 s2 p2)
  | isRight _ _ _ (isRight c2 d2 s2 p2) => lastCol (isRight c2 d2 s2 p2)

/-- The root of the surrounding tree is BLACK (trivially true for the empty
path). -/
def topBlack (p : UpPath) : Prop := lastCol p = Color.black

/-- Number of frames on the path. -/
def depth : UpPath → Nat
  | root => 0
  | isLeft _ _ _ p => depth p + 1
  | isRight _ _ _ p => depth p + 1

end UpPath

open UpPath

/-- `RedBlackTree::BasicInsert`'s descent: walk down from a subtree
comparing the new key, going left on `<` and right otherwise, recording
the path of parent links, until an absent-child slot is reached. The
source's final re-comparison `node->data < prev->data` to pick the attach
side repeats the last comparison of this descent. -/
def descend : RBNode → Int → UpPath → UpPath
  | RBNode.nil, _, p => p
  | RBNode.node c l d r, k, p =>
    if k < d then descend l k (UpPath.isLeft c d r p)
    else descend r k (UpPath.isRight c d l p)

/-- The tree produced by attaching subtree `m` at the absent-child slot
that the `BasicInsert` descent for key `k` reaches. -/
def bstAttach : RBNode → Int → RBNode → RBNode
  | RBNode.nil, _, m => m
  | RBNode.node c l d r, k, m =>
    if k < d then RBNode.node c (bstAttach l k m) d r
    else RBNode.node c l d (bstAttach r k m)

/-- The `while` loop of `RedBlackTree::InsertFixUp`, one equation per
control path of the source. State: the focused node (the loop's `node`
pointer) plus its path of parent links. Returns the rebuilt whole tree, or
`none` where the source dereferences a null grandparent (reachable only
from an invalid red root, as proved below).

* loop exit when the focus is the root or its parent is BLACK;
* a RED parent whose own parent is absent sends the source into the
  uncle-absent branch and a `node->parent->parent` null dereference;
* uncle RED (case 1): recolor parent and uncle BLACK, grandparent RED,
  continue from the grandparent;
* uncle BLACK/absent (cases 2-3): an inner-side focus is first rotated to
  the outer side, then the parent is painted BLACK, the grandparent RED,
  and the grandparent is rotated; the loop then exits since the focus's
  new parent is BLACK. -/
def fixup : RBNode → UpPath → Option RBNode
  | n, UpPath.root => some n
  | n, UpPath.isLeft Color.black pd psib pp =>
    some (plug n (UpPath.isLeft Color.black pd psib pp))
  | n, UpPath.isRight Color.black pd psib pp =>
    some (plug n (UpPath.isRight Color.black pd psib pp))
  | _, UpPath.isLeft Color.red _ _ UpPath.root => none
  | _, UpPath.isRight Color.red _ _ UpPath.root => none
  -- parent is a left child of the grandparent (lines 84-102)
  | n, UpPath.isLeft Color.red pd psib
      (UpPath.isLeft _ gd (RBNode.node Color.red ul ud ur) gp) =>
    fixup (RBNode.node Color.red (RBNode.node Color.black n pd psib) gd
      (RBNode.node Color.black ul ud ur)) gp
  | n, UpPath.isRight Color.red pd psib
      (UpPath.isLeft _ gd (RBNode.node Color.red ul ud ur) gp) =>
    fixup (RBNode.node Color.red (RBNode.node Color.black psib pd n) gd
      (RBNode.node Color.black ul ud ur)) gp
  | n, UpPath.isLeft Color.red pd psib (UpPath.isLeft _ gd RBNode.nil gp) =>
    some (plug (RBNode.node Color.black n pd
      (RBNode.node Color.red psib gd RBNode.nil)) gp)
  | n, UpPath.isLeft Color.red pd psib
      (UpPath.isLeft _ gd (RBNode.node Color.black ul ud ur) gp) =>
    some (plug (RBNode.node Color.black n pd
      (RBNode.node Color.red psib gd (RBNode.node Color.black ul ud ur))) gp)
  | RBNode.nil, UpPath.isRight Color.red _ _ (UpPath.isLeft _ _ RBNode.nil _) =>
    none
  | RBNode.nil, UpPath.isRight Color.red _ _
      (UpPath.isLeft _ _ (RBNode.node Color.black _ _ _) _) =>
    none
  | RBNode.node _ nl nd nr, UpPath.isRight Color.red pd psib
      (UpPath.isLeft _ gd RBNode.nil gp) =>
    some (plug (RBNode.node Color.black
      (RBNode.node Color.red psib pd nl) nd
      (RBNode.node Color.red nr gd RBNode.nil)) gp)
  | RBNode.node _ nl nd nr, UpPath.isRight Color.red pd psib
      (UpPath.isLeft _ gd (RBNode.node Color.black ul ud ur) gp) =>
    some (plug (RBNode.node Color.black
      (RBNode.node Color.red psib pd nl) nd
      (RBNode.node Color.red nr gd (RBNode.node Color.black ul ud ur))) gp)
  -- parent is not a left child of the grandparent (lines 103-119)
  | n, UpPath.isLeft Color.red pd psib
      (UpPath.isRight _ gd (RBNode.node Color.red ul ud ur) gp) =>
    fixup (RBNode.node Color.red (RBNode.node Color.black ul ud ur) gd
      (RBNode.node Color.black n pd psib)) gp
  | n, UpPath.isRight Color.red pd psib
      (UpPath.isRight _ gd (RBNode.node Color.red ul ud ur) gp) =>
    fixup (RBNode.node Color.red (RBNode.node Color.black ul ud ur) gd
      (RBNode.node Color.black psib pd n)) gp
  | RBNode.nil, UpPath.isLeft Color.red _ _ (UpPath.isRight _ _ RBNode.nil _) =>
    none
  | RBNode.nil, UpPath.isLeft Color.red _ _
      (UpPath.isRight _ _ (RBNode.node Color.black _ _ _) _) =>
    none
  | RBNode.node _ nl nd nr, UpPath.isLeft Color.red pd psib
      (UpPath.isRight _ gd RBNode.nil gp) =>
    some (plug (RBNode.node Color.black
      (RBNode.node Color.red RBNode.nil gd nl) nd
      (RBNode.node Color.red nr pd psib)) gp)
  | RBNode.node _ nl nd nr, UpPath.isLeft Color.red pd psib
      (UpPath.isRight _ gd (RBNode.node Color.black ul ud ur) gp) =>
    some (plug (RBNode.node Color.black
      (RBNode.node Color.red (RBNode.node Color.black ul ud ur) gd nl) nd
      (RBNode.node Color.red nr pd psib)) gp)
  | n, UpPath.isRight Color.red pd psib (UpPath.isRight _ gd RBNode.nil gp) =>
    some (plug (RBNode.node Color.black
      (RBNode.node Color.red RBNode.nil gd psib) pd n) gp)
  | n, UpPath.isRight Color.red pd psib
      (UpPath.isRight _ gd (RBNode.node Color.black ul ud ur) gp) =>
    some (plug (RBNode.node Color.black
      (RBNode.node Color.red (RBNode.node Color.black ul ud ur) gd psib) pd n) gp)

/-- `RedBlackTree::InsertFixUp`: run the loop, then paint the root BLACK
(line 122). -/
def insertFixUp (n : RBNode) (p : UpPath) : Option RBNode :=
  (fixup n p).map blacken

/-- The `RedBlackTree` object: a `root` (possibly absent) and `numItems`. -/
structure RedBlackTree where
  root : RBNode
  numItems : Nat
deriving DecidableEq

namespace RedBlackTree

/-- The default constructor: empty tree. -/
def mkEmpty : RedBlackTree := ⟨RBNode.nil, 0⟩

/-- The single-value constructor: one BLACK root node, count 1. -/
def mkSingle (d : Int) : RedBlackTree :=
  ⟨RBNode.node Color.black RBNode.nil d RBNode.nil, 1⟩

/-- The copy constructor: `CopyOf` the source's root, copy the count. -/
def copy (t : RedBlackTree) : RedBlackTree :=
  ⟨copyOf t.root, t.numItems⟩

/-- `RedBlackTree::Contains`. -/
def Contains (t : RedBlackTree) (d : Int) : Bool :=
  (get t.root d).isSome

/-- `RedBlackTree::Insert`. `none` embeds undefined behaviour (a null
dereference inside `InsertFixUp`); `some (.error e)` embeds a thrown
exception, which leaves the tree untouched because the source throws
before allocating or linking anything; `some (.ok t')` is the updated
tree. -/
def Insert (t : RedBlackTree) (newData : Int) : Option (Except String RedBlackTree) :=
  match t.root with
  | RBNode.nil =>
    some (Except.ok ⟨RBNode.node Color.black RBNode.nil newData RBNode.nil,
      t.numItems + 1⟩)
  | RBNode.node c l d r =>
    if Contains t newData then some (Except.error "Duplicate value.")
    else
      match insertFixUp (RBNode.node Color.red RBNode.nil newData RBNode.nil)
          (descend (RBNode.node c l d r) newData UpPath.root) with
      | none => none
      | some fixed => some (Except.ok ⟨blacken fixed, t.numItems + 1⟩)

/-- `RedBlackTree::GetMin`. -/
def GetMin (t : RedBlackTree) : Except String Int :=
  match leftmost t.root with
  | none => Except.error "Tree is empty."
  | some d => Except.ok d

/-- `RedBlackTree::GetMax`. -/
def GetMax (t : RedBlackTree) : Except String Int :=
  match rightmost t.root with
  | none => Except.error "Tree is empty."
  | some d => Except.ok d

/-- Fold a list of keys through successful `Insert`s; `none` if any insert
throws or hits undefined behaviour. -/
def insertMany (t : RedBlackTree) : List Int → Option RedBlackTree
  | [] => some t
  | k :: ks =>
    match Insert t k with
    | some (Except.ok t') => insertMany t' ks
    | _ => none

/-- The red-black invariants of the spec's data model, plus count
consistency: BLACK root (or empty), no red-red edge, uniform black-height,
strictly ascending in-order key list (BST order, no duplicates), and
`numItems` equal to the number of stored keys. -/
def Valid (t : RedBlackTree) : Prop :=
  rootCol t.root = Color.black ∧ noRR t.root = true ∧ (bh t.root).isSome ∧
    (inorder t.root).Sorted (· < ·) ∧ t.numItems = (inorder t.root).length

/-- Trees producible by the public API: the three constructors plus any
sequence of successful `Insert`s. -/
inductive Reachable : RedBlackTree → Prop where
  | mkEmpty : Reachable mkEmpty
  | mkSingle (d : Int) : Reachable (mkSingle d)
  | copy {t : RedBlackTree} : Reachable t → Reachable (copy t)
  | insert {t t' : RedBlackTree} {k : Int} : Reachable t →
      Insert t k = some (Except.ok t') → Reachable t'

end RedBlackTree

/-! ## Basic lemmas about colors, `blacken`, and `inorder` -/

theorem color_ne_red_iff {c : Color} : ¬c = Color.red ↔ c = Color.black := by
  cases c <;> simp

theorem inorder_eq_nil_iff {t : RBNode} : inorder t = [] ↔ t = RBNode.nil := by
  cases t <;> simp [inorder]

theorem inorder_blacken (t : RBNode) : inorder (blacken t) = inorder t := by
  cases t <;> simp [blacken, inorder]

theorem noRR_blacken {t : RBNode} (h : noRR t = true) : noRR (blacken t) = true := by
  cases t with
  | nil => simpa [blacken] using h
  | node c l d r => cases c <;> simp_all [blacken, noRR]

theorem bh_blacken_isSome {t : RBNode} (h : (bh t).isSome) :
    (bh (blacken t)).isSome := by
  cases t with
  | nil => simpa [blacken] using h
  | node c l d r =>
    cases hl : bh l with
    | none => simp [bh, hl] at h
    | some a =>
      by_cases hr : bh r = some a
      · simp [bh, blacken, hl, hr]
      · simp [bh, hl, hr] at h

theorem rootCol_blacken {t : RBNode} (h : t ≠ RBNode.nil) :
    rootCol (blacken t) = Color.black := by
  cases t with
  | nil => exact absurd rfl h
  | node c l d r => simp [blacken, rootCol]

/-! ## Plugging a focused subtree back along its path -/

theorem plug_inorder (p : UpPath) :
    ∀ n, inorder (UpPath.plug n p) = UpPath.ctxL p ++ inorder n ++ UpPath.ctxR p := by
  induction p with
  | root => intro n; simp [UpPath.plug, UpPath.ctxL, UpPath.ctxR]
  | isLeft c d sib q ih =>
    intro n
    simp [UpPath.plug, UpPath.ctxL, UpPath.ctxR, ih, inorder]
  | isRight c d sib q ih =>
    intro n
    simp [UpPath.plug, UpPath.ctxL, UpPath.ctxR, ih, inorder]

theorem plug_bh (p : UpPath) :
    ∀ n, bh (UpPath.plug n p) = (bh n).bind fun h => UpPath.pbh p h := by
  induction p with
  | root => intro n; cases h : bh n <;> simp [UpPath.plug, UpPath.pbh, h]
  | isLeft c d sib q ih =>
    intro n
    rw [UpPath.plug, ih]
    show (bh (RBNode.node c n d sib)).bind _ = _
    rw [bh]
    cases bh n with
    | none => simp
    | some a =>
      by_cases hs : bh sib = some a <;> simp [UpPath.pbh, hs]
  | isRight c d sib q ih =>
    intro n
    rw [UpPath.plug, ih]
    show (bh (RBNode.node c sib d n)).bind _ = _
    rw [bh]
    cases hs : bh sib with
    | none => cases bh n <;> simp [UpPath.pbh, hs]
    | some b =>
      cases bh n with
      | none => simp
      | some a =>
        by_cases hab : a = b
        · subst hab; simp [UpPath.pbh, hs]
        · have hba : ¬b = a := fun h => hab h.symm
          simp [UpPath.pbh, hs, hab, hba]

theorem plug_noRR (p : UpPath) :
    ∀ n, noRR (UpPath.plug n p) = true ↔
      (noRR n = true ∧ UpPath.pathRR p ∧
        (UpPath.pcol p = Color.red → rootCol n = Color.black)) := by
  induction p with
  | root => intro n; simp [UpPath.plug, UpPath.pathRR, UpPath.pcol]
  | isLeft c d sib q ih =>
    intro n
    rw [UpPath.plug, ih]
    cases c with
    | black =>
      simp only [noRR, UpPath.pathRR, UpPath.pcol, rootCol, Bool.and_eq_true]
      constructor
      · rintro ⟨⟨h1, h2⟩, h3, h4⟩
        exact ⟨h1, ⟨h2, h3, by simp⟩, fun h => absurd h (by simp)⟩
      · rintro ⟨h1, ⟨h2, h3, -⟩, -⟩
        exact ⟨⟨h1, h2⟩, h3, by simp⟩
    | red =>
      simp only [noRR, UpPath.pathRR, UpPath.pcol, rootCol, Bool.and_eq_true,
        decide_eq_true_eq]
      constructor
      · rintro ⟨⟨⟨⟨hn, hs⟩, h1⟩, h2⟩, h3, h4⟩
        refine ⟨h1, ⟨h2, h3, fun _ => ⟨hs, ?_⟩⟩, fun _ => hn⟩
        exact color_ne_red_iff.mp (fun hr => by simp [hr] at h4)
      · rintro ⟨h1, ⟨h2, h3, h5⟩, h6⟩
        obtain ⟨hs, hq⟩ := h5 (by simp)
        exact ⟨⟨⟨⟨h6 (by simp), hs⟩, h1⟩, h2⟩, h3, fun hr => by simp [hq] at hr⟩
  | isRight c d sib q ih =>
    intro n
    rw [UpPath.plug, ih]
    cases c with
    | black =>
      simp only [noRR, UpPath.pathRR, UpPath.pcol, rootCol, Bool.and_eq_true]
      constructor
      · rintro ⟨⟨h2, h1⟩, h3, h4⟩
        exact ⟨h1, ⟨h2, h3, by simp⟩, fun h => absurd h (by simp)⟩
      · rintro ⟨h1, ⟨h2, h3, -⟩, -⟩
        exact ⟨⟨h2, h1⟩, h3, by simp⟩
    | red =>
      simp only [noRR, UpPath.pathRR, UpPath.pcol, rootCol, Bool.and_eq_true,
        decide_eq_true_eq]
      constructor
      · rintro ⟨⟨⟨⟨hs, hn⟩, h1⟩, h2⟩, h3, h4⟩
        refine ⟨h2, ⟨h1, h3, fun _ => ⟨hs, ?_⟩⟩, fun _ => hn⟩
        exact color_ne_red_iff.mp (fun hr => by simp [hr] at h4)
      · rintro ⟨h1, ⟨h2, h3, h5⟩, h6⟩
        obtain ⟨hs, hq⟩ := h5 (by simp)
        exact ⟨⟨⟨⟨hs, h6 (by simp)⟩, h2⟩, h1⟩, h3, fun hr => by simp [hq] at hr⟩

/-! ## Helpers for decomposing the invariants at a node or path frame -/

theorem noRR_node_black {l r : RBNode} {d : Int} :
    noRR (RBNode.node Color.black l d r) = true ↔
      noRR l = true ∧ noRR r = true := by
  simp [noRR]

theorem noRR_node_red {l r : RBNode} {d : Int} :
    noRR (RBNode.node Color.red l d r) = true ↔
      rootCol l = Color.black ∧ rootCol r = Color.black ∧
        noRR l = true ∧ noRR r = true := by
  simp [noRR, and_assoc]

theorem bh_node_some {c : Color} {l r : RBNode} {d : Int} {a : Nat}
    (hl : bh l = some a) (hr : bh r = some a) :
    bh (RBNode.node c l d r) = some (a + colVal c) := by
  simp [bh, hl, hr]

theorem bh_node_iff {c : Color} {l r : RBNode} {d : Int} {h : Nat} :
    bh (RBNode.node c l d r) = some h ↔
      ∃ a, bh l = some a ∧ bh r = some a ∧ h = a + colVal c := by
  rw [bh]
  cases hl : bh l with
  | none => simp
  | some a =>
    by_cases hr : bh r = some a
    · simp [hr, eq_comm]
    · simp only [Option.some_bind]
      rw [if_neg hr]
      simp only [reduceCtorEq, false_iff]
      rintro ⟨a', ha', hr', rfl⟩
      obtain rfl : a = a' := by simpa using ha'
      exact hr hr'

theorem pbh_left_elim {c : Color} {d : Int} {sib : RBNode} {p : UpPath}
    {h H : Nat} (hp : UpPath.pbh (UpPath.isLeft c d sib p) h = some H) :
    bh sib = some h ∧ UpPath.pbh p (h + colVal c) = some H := by
  by_cases hs : bh sib = some h
  · exact ⟨hs, by simpa [UpPath.pbh, hs] using hp⟩
  · simp [UpPath.pbh, hs] at hp

theorem pbh_right_elim {c : Color} {d : Int} {sib : RBNode} {p : UpPath}
    {h H : Nat} (hp : UpPath.pbh (UpPath.isRight c d sib p) h = some H) :
    bh sib = some h ∧ UpPath.pbh p (h + colVal c) = some H := by
  by_cases hs : bh sib = some h
  · exact ⟨hs, by simpa [UpPath.pbh, hs] using hp⟩
  · simp [UpPath.pbh, hs] at hp

theorem plug_inorder_congr {m m' : RBNode} (p : UpPath)
    (h : inorder m = inorder m') :
    inorder (UpPath.plug m p) = inorder (UpPath.plug m' p) := by
  simp [plug_inorder, h]

theorem topBlack_tail_left {c : Color} {d : Int} {sib : RBNode} {p : UpPath}
    (h : UpPath.topBlack (UpPath.isLeft c d sib p)) : UpPath.topBlack p := by
  cases p <;> simp_all [UpPath.topBlack, UpPath.lastCol]

theorem topBlack_tail_right {c : Color} {d : Int} {sib : RBNode} {p : UpPath}
    (h : UpPath.topBlack (UpPath.isRight c d sib p)) : UpPath.topBlack p := by
  cases p <;> simp_all [UpPath.topBlack, UpPath.lastCol]

/-! ## The `BasicInsert` descent establishes the fix-up preconditions -/

theorem descend_topBlack :
    ∀ (t : RBNode) (k : Int) (p : UpPath),
      (p = UpPath.root → rootCol t = Color.black) → UpPath.topBlack p →
      UpPath.topBlack (descend t k p) := by
  intro t
  induction t with
  | nil => intro k p _ hp; simpa [descend] using hp
  | node c l d r ihl ihr =>
    intro k p hroot hp
    rw [descend]
    by_cases hk : k < d
    · rw [if_pos hk]
      refine ihl k _ (by intro h; cases h) ?_
      cases p with
      | root => simpa [UpPath.topBlack, UpPath.lastCol] using hroot rfl
      | isLeft c2 d2 s2 p2 => simpa [UpPath.topBlack, UpPath.lastCol] using hp
      | isRight c2 d2 s2 p2 => simpa [UpPath.topBlack, UpPath.lastCol] using hp
    · rw [if_neg hk]
      refine ihr k _ (by intro h; cases h) ?_
      cases p with
      | root => simpa [UpPath.topBlack, UpPath.lastCol] using hroot rfl
      | isLeft c2 d2 s2 p2 => simpa [UpPath.topBlack, UpPath.lastCol] using hp
      | isRight c2 d2 s2 p2 => simpa [UpPath.topBlack, UpPath.lastCol] using hp

theorem descend_props :
    ∀ (t : RBNode) (k : Int) (p : UpPath) (h H : Nat),
      noRR t = true → bh t = some h →
      (UpPath.pcol p = Color.red → rootCol t = Color.black) →
      UpPath.pathRR p → UpPath.pbh p h = some H →
      UpPath.pathRR (descend t k p) ∧
        UpPath.pbh (descend t k p) 0 = some H := by
  intro t
  induction t with
  | nil =>
    intro k p h H _ hbh _ hrr hpbh
    obtain rfl : h = 0 := by simpa [bh] using hbh.symm
    exact ⟨by simpa [descend] using hrr, by simpa [descend] using hpbh⟩
  | node c l d r ihl ihr =>
    intro k p h H hnoRR hbh hpc hrr hpbh
    obtain ⟨a, hl, hr, rfl⟩ := bh_node_iff.mp hbh
    have hcol : c = Color.red →
        rootCol l = Color.black ∧ rootCol r = Color.black ∧
          noRR l = true ∧ noRR r = true := by
      intro hc; subst hc; exact noRR_node_red.mp hnoRR
    have hchildren : noRR l = true ∧ noRR r = true := by
      cases c with
      | red => exact ⟨(hcol rfl).2.2.1, (hcol rfl).2.2.2⟩
      | black => exact noRR_node_black.mp hnoRR
    have hpcolp : c = Color.red → UpPath.pcol p = Color.black := by
      intro hc
      refine color_ne_red_iff.mp fun hred => ?_
      have := hpc hred
      rw [rootCol, hc] at this
      cases this
    rw [descend]
    by_cases hk : k < d
    · rw [if_pos hk]
      refine ihl k (UpPath.isLeft c d r p) a H hchildren.1 hl ?_ ?_ ?_
      · intro hc
        exact (hcol (by simpa [UpPath.pcol] using hc)).1
      · exact ⟨hchildren.2, hrr, fun hc => ⟨(hcol hc).2.1, hpcolp hc⟩⟩
      · simpa [UpPath.pbh, hr] using hpbh
    · rw [if_neg hk]
      refine ihr k (UpPath.isRight c d l p) a H hchildren.2 hr ?_ ?_ ?_
      · intro hc
        exact (hcol (by simpa [UpPath.pcol] using hc)).2.1
      · exact ⟨hchildren.1, hrr, fun hc => ⟨(hcol hc).1, hpcolp hc⟩⟩
      · simpa [UpPath.pbh, hl] using hpbh

theorem bh_node_red_elim {l r : RBNode} {d : Int} {h : Nat}
    (hb : bh (RBNode.node Color.red l d r) = some h) :
    bh l = some h ∧ bh r = some h := by
  obtain ⟨a, hl, hr, rfl⟩ := bh_node_iff.mp hb
  simpa [colVal] using ⟨hl, hr⟩

/-! ## Correctness of the `InsertFixUp` loop

Given a RED focus whose subtree is internally valid, a path whose frames
are valid except possibly for one red-red violation at the focus edge, and
a BLACK tree root, the loop terminates without touching a null pointer and
returns a tree with no red-red edge, the original global black-height, and
the original in-order key sequence. -/

theorem fixup_ok :
    ∀ (N : Nat) (p : UpPath) (n : RBNode) (h H : Nat),
      UpPath.depth p ≤ N →
      rootCol n = Color.red → noRR n = true → bh n = some h →
      UpPath.pathRR p → UpPath.topBlack p → UpPath.pbh p h = some H →
      ∃ r, fixup n p = some r ∧ noRR r = true ∧ bh r = some H ∧
        inorder r = inorder (UpPath.plug n p) := by
  intro N
  induction N with
  | zero =>
    intro p n h H hd hcol hnr hbh hrr htb hpbh
    cases p with
    | root =>
      refine ⟨n, by simp [fixup], hnr, ?_, by simp [UpPath.plug]⟩
      have hH : h = H := by simpa [UpPath.pbh] using hpbh
      rw [← hH]; exact hbh
    | isLeft c d s q => simp [UpPath.depth] at hd
    | isRight c d s q => simp [UpPath.depth] at hd
  | succ N ih =>
    intro p n h H hd hcol hnr hbh hrr htb hpbh
    obtain ⟨nc, nl, nd, nr, rfl⟩ : ∃ nc nl nd nr, n = RBNode.node nc nl nd nr := by
      cases n with
      | nil => rw [rootCol] at hcol; cases hcol
      | node nc nl nd nr => exact ⟨nc, nl, nd, nr, rfl⟩
    obtain rfl : nc = Color.red := by simpa [rootCol] using hcol
    cases p with
    | root =>
      refine ⟨_, by simp [fixup], hnr, ?_, by simp [UpPath.plug]⟩
      have hH : h = H := by simpa [UpPath.pbh] using hpbh
      rw [← hH]; exact hbh
    | isLeft pc pd psib pp =>
      cases pc with
      | black =>
        refine ⟨_, by simp [fixup], (plug_noRR _ _).mpr ⟨hnr, hrr, ?_⟩, ?_, rfl⟩
        · intro hcontra; simp [UpPath.pcol] at hcontra
        · rw [plug_bh, hbh]
          simpa [UpPath.pbh] using hpbh
      | red =>
        simp only [UpPath.pathRR] at hrr
        obtain ⟨hpsibRR, hppRR, himp⟩ := hrr
        obtain ⟨hpsibBlack, hppcol⟩ := himp (by trivial)
        have hbhpsib := (pbh_left_elim hpbh).1
        have hpbh2 := (pbh_left_elim hpbh).2
        rw [colVal, Nat.add_zero] at hpbh2
        cases pp with
        | root => simp [UpPath.topBlack, UpPath.lastCol] at htb
        | isLeft gc gd U gp =>
          obtain rfl : gc = Color.black := by simpa [UpPath.pcol] using hppcol
          simp only [UpPath.pathRR] at hppRR
          obtain ⟨hURR, hgpRR, -⟩ := hppRR
          have hbhU := (pbh_left_elim hpbh2).1
          have hpbh3 := (pbh_left_elim hpbh2).2
          rw [colVal] at hpbh3
          have htbgp : UpPath.topBlack gp :=
            topBlack_tail_left (topBlack_tail_left htb)
          have hdgp : UpPath.depth gp ≤ N := by
            simp [UpPath.depth] at hd; omega
          cases U with
          | node Uc ul ud ur =>
            cases Uc with
            | red =>
              -- case 1: red uncle, recolor and continue from the grandparent
              obtain ⟨hulB, hurB, hulRR, hurRR⟩ := noRR_node_red.mp hURR
              obtain ⟨hbul, hbur⟩ := bh_node_red_elim hbhU
              have hL : bh (RBNode.node Color.black (RBNode.node Color.red nl nd nr) pd psib) =
                  some (h + 1) := by
                simpa [colVal] using bh_node_some hbh hbhpsib
              have hR : bh (RBNode.node Color.black ul ud ur) = some (h + 1) := by
                simpa [colVal] using bh_node_some hbul hbur
              have hN : bh (RBNode.node Color.red
                  (RBNode.node Color.black (RBNode.node Color.red nl nd nr) pd psib) gd
                  (RBNode.node Color.black ul ud ur)) = some (h + 1) := by
                simpa [colVal] using bh_node_some hL hR
              have hNRR : noRR (RBNode.node Color.red
                  (RBNode.node Color.black (RBNode.node Color.red nl nd nr) pd psib) gd
                  (RBNode.node Color.black ul ud ur)) = true :=
                noRR_node_red.mpr ⟨rfl, rfl,
                  noRR_node_black.mpr ⟨hnr, hpsibRR⟩,
                  noRR_node_black.mpr ⟨hulRR, hurRR⟩⟩
              obtain ⟨r, hfix, hr1, hr2, hr3⟩ :=
                ih gp
                (RBNode.node Color.red (RBNode.node Color.black (RBNode.node Color.red nl nd nr) pd psib) gd (RBNode.node Color.black ul ud ur))
                (h + 1) H hdgp rfl hNRR hN hgpRR htbgp hpbh3
              refine ⟨r, by simp only [fixup]; exact hfix, hr1, hr2, ?_⟩
              rw [hr3]
              simp only [UpPath.plug]
              exact plug_inorder_congr gp (by simp [inorder, List.append_assoc])
            | black =>
              -- case 3: black uncle, outer child: recolor and right-rotate
              have hX : bh (RBNode.node Color.black (RBNode.node Color.red nl nd nr) pd
                  (RBNode.node Color.red psib gd (RBNode.node Color.black ul ud ur))) =
                  some (h + 1) := by
                have hinner : bh (RBNode.node Color.red psib gd
                    (RBNode.node Color.black ul ud ur)) = some h := by
                  simpa [colVal] using bh_node_some hbhpsib hbhU
                simpa [colVal] using bh_node_some hbh hinner
              have hXRR : noRR (RBNode.node Color.black (RBNode.node Color.red nl nd nr) pd
                  (RBNode.node Color.red psib gd (RBNode.node Color.black ul ud ur))) = true :=
                noRR_node_black.mpr ⟨hnr,
                  noRR_node_red.mpr ⟨hpsibBlack, rfl, hpsibRR, hURR⟩⟩
              refine ⟨_, by simp [fixup], (plug_noRR gp _).mpr ⟨hXRR, hgpRR, fun _ => rfl⟩,
                ?_, ?_⟩
              · rw [plug_bh, hX]
                simpa using hpbh3
              · simp only [UpPath.plug]
                exact plug_inorder_congr gp (by simp [inorder, List.append_assoc])
          | nil =>
            have hX : bh (RBNode.node Color.black (RBNode.node Color.red nl nd nr) pd
                (RBNode.node Color.red psib gd RBNode.nil)) = some (h + 1) := by
              have hinner : bh (RBNode.node Color.red psib gd RBNode.nil) = some h := by
                simpa [colVal] using bh_node_some hbhpsib hbhU
              simpa [colVal] using bh_node_some hbh hinner
            have hXRR : noRR (RBNode.node Color.black (RBNode.node Color.red nl nd nr) pd
                (RBNode.node Color.red psib gd RBNode.nil)) = true :=
              noRR_node_black.mpr ⟨hnr,
                noRR_node_red.mpr ⟨hpsibBlack, rfl, hpsibRR, hURR⟩⟩
            refine ⟨_, by simp [fixup], (plug_noRR gp _).mpr ⟨hXRR, hgpRR, fun _ => rfl⟩,
              ?_, ?_⟩
            · rw [plug_bh, hX]
              simpa using hpbh3
            · simp only [UpPath.plug]
              exact plug_inorder_congr gp (by simp [inorder, List.append_assoc])
        | isRight gc gd U gp =>
          obtain rfl : gc = Color.black := by simpa [UpPath.pcol] using hppcol
          simp only [UpPath.pathRR] at hppRR
          obtain ⟨hURR, hgpRR, -⟩ := hppRR
          have hbhU := (pbh_right_elim hpbh2).1
          have hpbh3 := (pbh_right_elim hpbh2).2
          rw [colVal] at hpbh3
          have htbgp : UpPath.topBlack gp :=
            topBlack_tail_right (topBlack_tail_left htb)
          have hdgp : UpPath.depth gp ≤ N := by
            simp [UpPath.depth] at hd; omega
          obtain ⟨hnlB, hnrB, hnlRR, hnrRR⟩ := noRR_node_red.mp hnr
          obtain ⟨hbnl, hbnr⟩ := bh_node_red_elim hbh
          cases U with
          | node Uc ul ud ur =>
            cases Uc with
            | red =>
              -- mirror case 1
              obtain ⟨hulB, hurB, hulRR, hurRR⟩ := noRR_node_red.mp hURR
              obtain ⟨hbul, hbur⟩ := bh_node_red_elim hbhU
              have hL : bh (RBNode.node Color.black ul ud ur) = some (h + 1) := by
                simpa [colVal] using bh_node_some hbul hbur
              have hR : bh (RBNode.node Color.black (RBNode.node Color.red nl nd nr) pd psib) =
                  some (h + 1) := by
                simpa [colVal] using bh_node_some hbh hbhpsib
              have hN : bh (RBNode.node Color.red (RBNode.node Color.black ul ud ur) gd
                  (RBNode.node Color.black (RBNode.node Color.red nl nd nr) pd psib)) =
                  some (h + 1) := by
                simpa [colVal] using bh_node_some hL hR
              have hNRR : noRR (RBNode.node Color.red (RBNode.node Color.black ul ud ur) gd
                  (RBNode.node Color.black (RBNode.node Color.red nl nd nr) pd psib)) = true :=
                noRR_node_red.mpr ⟨rfl, rfl,
                  noRR_node_black.mpr ⟨hulRR, hurRR⟩,
                  noRR_node_black.mpr ⟨hnr, hpsibRR⟩⟩
              obtain ⟨r, hfix, hr1, hr2, hr3⟩ :=
                ih gp
                (RBNode.node Color.red (RBNode.node Color.black ul ud ur) gd (RBNode.node Color.black (RBNode.node Color.red nl nd nr) pd psib))
                (h + 1) H hdgp rfl hNRR hN hgpRR htbgp hpbh3
              refine ⟨r, by simp only [fixup]; exact hfix, hr1, hr2, ?_⟩
              rw [hr3]
              simp only [UpPath.plug]
              exact plug_inorder_congr gp (by simp [inorder, List.append_assoc])
            | black =>
              -- mirror case 2 then 3: inner child, rotate parent right then
              -- grandparent left
              have hX : bh (RBNode.node Color.black
                  (RBNode.node Color.red (RBNode.node Color.black ul ud ur) gd nl) nd
                  (RBNode.node Color.red nr pd psib)) = some (h + 1) := by
                have hinnerL : bh (RBNode.node Color.red
                    (RBNode.node Color.black ul ud ur) gd nl) = some h := by
                  simpa [colVal] using bh_node_some hbhU hbnl
                have hinnerR : bh (RBNode.node Color.red nr pd psib) = some h := by
                  simpa [colVal] using bh_node_some hbnr hbhpsib
                simpa [colVal] using bh_node_some hinnerL hinnerR
              have hXRR : noRR (RBNode.node Color.black
                  (RBNode.node Color.red (RBNode.node Color.black ul ud ur) gd nl) nd
                  (RBNode.node Color.red nr pd psib)) = true :=
                noRR_node_black.mpr
                  ⟨noRR_node_red.mpr ⟨rfl, hnlB, hURR, hnlRR⟩,
                   noRR_node_red.mpr ⟨hnrB, hpsibBlack, hnrRR, hpsibRR⟩⟩
              refine ⟨_, by simp [fixup], (plug_noRR gp _).mpr ⟨hXRR, hgpRR, fun _ => rfl⟩,
                ?_, ?_⟩
              · rw [plug_bh, hX]
                simpa using hpbh3
              · simp only [UpPath.plug]
                exact plug_inorder_congr gp (by simp [inorder, List.append_assoc])
          | nil =>
            have hX : bh (RBNode.node Color.black
                (RBNode.node Color.red RBNode.nil gd nl) nd
                (RBNode.node Color.red nr pd psib)) = some (h + 1) := by
              have hinnerL : bh (RBNode.node Color.red RBNode.nil gd nl) = some h := by
                simpa [colVal] using bh_node_some hbhU hbnl
              have hinnerR : bh (RBNode.node Color.red nr pd psib) = some h := by
                simpa [colVal] using bh_node_some hbnr hbhpsib
              simpa [colVal] using bh_node_some hinnerL hinnerR
            have hXRR : noRR (RBNode.node Color.black
                (RBNode.node Color.red RBNode.nil gd nl) nd
                (RBNode.node Color.red nr pd psib)) = true :=
              noRR_node_black.mpr
                ⟨noRR_node_red.mpr ⟨rfl, hnlB, hURR, hnlRR⟩,
                 noRR_node_red.mpr ⟨hnrB, hpsibBlack, hnrRR, hpsibRR⟩⟩
            refine ⟨_, by simp [fixup], (plug_noRR gp _).mpr ⟨hXRR, hgpRR, fun _ => rfl⟩,
              ?_, ?_⟩
            · rw [plug_bh, hX]
              simpa using hpbh3
            · simp only [UpPath.plug]
              exact plug_inorder_congr gp (by simp [inorder, List.append_assoc])
    | isRight pc pd psib pp =>
      cases pc with
      | black =>
        refine ⟨_, by simp [fixup], (plug_noRR _ _).mpr ⟨hnr, hrr, ?_⟩, ?_, rfl⟩
        · intro hcontra; simp [UpPath.pcol] at hcontra
        · rw [plug_bh, hbh]
          simpa [UpPath.pbh] using hpbh
      | red =>
        simp only [UpPath.pathRR] at hrr
        obtain ⟨hpsibRR, hppRR, himp⟩ := hrr
        obtain ⟨hpsibBlack, hppcol⟩ := himp (by trivial)
        have hbhpsib := (pbh_right_elim hpbh).1
        have hpbh2 := (pbh_right_elim hpbh).2
        rw [colVal, Nat.add_zero] at hpbh2
        cases pp with
        | root => simp [UpPath.topBlack, UpPath.lastCol] at htb
        | isLeft gc gd U gp =>
          obtain rfl : gc = Color.black := by simpa [UpPath.pcol] using hppcol
          simp only [UpPath.pathRR] at hppRR
          obtain ⟨hURR, hgpRR, -⟩ := hppRR
          have hbhU := (pbh_left_elim hpbh2).1
          have hpbh3 := (pbh_left_elim hpbh2).2
          rw [colVal] at hpbh3
          have htbgp : UpPath.topBlack gp :=
            topBlack_tail_left (topBlack_tail_right htb)
          have hdgp : UpPath.depth gp ≤ N := by
            simp [UpPath.depth] at hd; omega
          obtain ⟨hnlB, hnrB, hnlRR, hnrRR⟩ := noRR_node_red.mp hnr
          obtain ⟨hbnl, hbnr⟩ := bh_node_red_elim hbh
          cases U with
          | node Uc ul ud ur =>
            cases Uc with
            | red =>
              obtain ⟨hulB, hurB, hulRR, hurRR⟩ := noRR_node_red.mp hURR
              obtain ⟨hbul, hbur⟩ := bh_node_red_elim hbhU
              have hL : bh (RBNode.node Color.black psib pd (RBNode.node Color.red nl nd nr)) =
                  some (h + 1) := by
                simpa [colVal] using bh_node_some hbhpsib hbh
              have hR : bh (RBNode.node Color.black ul ud ur) = some (h + 1) := by
                simpa [colVal] using bh_node_some hbul hbur
              have hN : bh (RBNode.node Color.red
                  (RBNode.node Color.black psib pd (RBNode.node Color.red nl nd nr)) gd
                  (RBNode.node Color.black ul ud ur)) = some (h + 1) := by
                simpa [colVal] using bh_node_some hL hR
              have hNRR : noRR (RBNode.node Color.red
                  (RBNode.node Color.black psib pd (RBNode.node Color.red nl nd nr)) gd
                  (RBNode.node Color.black ul ud ur)) = true :=
                noRR_node_red.mpr ⟨rfl, rfl,
                  noRR_node_black.mpr ⟨hpsibRR, hnr⟩,
                  noRR_node_black.mpr ⟨hulRR, hurRR⟩⟩
              obtain ⟨r, hfix, hr1, hr2, hr3⟩ :=
                ih gp
                (RBNode.node Color.red (RBNode.node Color.black psib pd (RBNode.node Color.red nl nd nr)) gd (RBNode.node Color.black ul ud ur))
                (h + 1) H hdgp rfl hNRR hN hgpRR htbgp hpbh3
              refine ⟨r, by simp only [fixup]; exact hfix, hr1, hr2, ?_⟩
              rw [hr3]
              simp only [UpPath.plug]
              exact plug_inorder_congr gp (by simp [inorder, List.append_assoc])
            | black =>
              -- case 2 then 3: inner child on the left-grandparent side
              have hX : bh (RBNode.node Color.black
                  (RBNode.node Color.red psib pd nl) nd
                  (RBNode.node Color.red nr gd (RBNode.node Color.black ul ud ur))) =
                  some (h + 1) := by
                have hinnerL : bh (RBNode.node Color.red psib pd nl) = some h := by
                  simpa [colVal] using bh_node_some hbhpsib hbnl
                have hinnerR : bh (RBNode.node Color.red nr gd
                    (RBNode.node Color.black ul ud ur)) = some h := by
                  simpa [colVal] using bh_node_some hbnr hbhU
                simpa [colVal] using bh_node_some hinnerL hinnerR
              have hXRR : noRR (RBNode.node Color.black
                  (RBNode.node Color.red psib pd nl) nd
                  (RBNode.node Color.red nr gd (RBNode.node Color.black ul ud ur))) = true :=
                noRR_node_black.mpr
                  ⟨noRR_node_red.mpr ⟨hpsibBlack, hnlB, hpsibRR, hnlRR⟩,
                   noRR_node_red.mpr ⟨hnrB, rfl, hnrRR, hURR⟩⟩
              refine ⟨_, by simp [fixup], (plug_noRR gp _).mpr ⟨hXRR, hgpRR, fun _ => rfl⟩,
                ?_, ?_⟩
              · rw [plug_bh, hX]
                simpa using hpbh3
              · simp only [UpPath.plug]
                exact plug_inorder_congr gp (by simp [inorder, List.append_assoc])
          | nil =>
            have hX : bh (RBNode.node Color.black
                (RBNode.node Color.red psib pd nl) nd
                (RBNode.node Color.red nr gd RBNode.nil)) = some (h + 1) := by
              have hinnerL : bh (RBNode.node Color.red psib pd nl) = some h := by
                simpa [colVal] using bh_node_some hbhpsib hbnl
              have hinnerR : bh (RBNode.node Color.red nr gd RBNode.nil) = some h := by
                simpa [colVal] using bh_node_some hbnr hbhU
              simpa [colVal] using bh_node_some hinnerL hinnerR
            have hXRR : noRR (RBNode.node Color.black
                (RBNode.node Color.red psib pd nl) nd
                (RBNode.node Color.red nr gd RBNode.nil)) = true :=
              noRR_node_black.mpr
                ⟨noRR_node_red.mpr ⟨hpsibBlack, hnlB, hpsibRR, hnlRR⟩,
                 noRR_node_red.mpr ⟨hnrB, rfl, hnrRR, hURR⟩⟩
            refine ⟨_, by simp [fixup], (plug_noRR gp _).mpr ⟨hXRR, hgpRR, fun _ => rfl⟩,
              ?_, ?_⟩
            · rw [plug_bh, hX]
              simpa using hpbh3
            · simp only [UpPath.plug]
              exact plug_inorder_congr gp (by simp [inorder, List.append_assoc])
        | isRight gc gd U gp =>
          obtain rfl : gc = Color.black := by simpa [UpPath.pcol] using hppcol
          simp only [UpPath.pathRR] at hppRR
          obtain ⟨hURR, hgpRR, -⟩ := hppRR
          have hbhU := (pbh_right_elim hpbh2).1
          have hpbh3 := (pbh_right_elim hpbh2).2
          rw [colVal] at hpbh3
          have htbgp : UpPath.topBlack gp :=
            topBlack_tail_right (topBlack_tail_right htb)
          have hdgp : UpPath.depth gp ≤ N := by
            simp [UpPath.depth] at hd; omega
          cases U with
          | node Uc ul ud ur =>
            cases Uc with
            | red =>
              obtain ⟨hulB, hurB, hulRR, hurRR⟩ := noRR_node_red.mp hURR
              obtain ⟨hbul, hbur⟩ := bh_node_red_elim hbhU
              have hL : bh (RBNode.node Color.black ul ud ur) = some (h + 1) := by
                simpa [colVal] using bh_node_some hbul hbur
              have hR : bh (RBNode.node Color.black psib pd (RBNode.node Color.red nl nd nr)) =
                  some (h + 1) := by
                simpa [colVal] using bh_node_some hbhpsib hbh
              have hN : bh (RBNode.node Color.red (RBNode.node Color.black ul ud ur) gd
                  (RBNode.node Color.black psib pd (RBNode.node Color.red nl nd nr))) =
                  some (h + 1) := by
                simpa [colVal] using bh_node_some hL hR
              have hNRR : noRR (RBNode.node Color.red (RBNode.node Color.black ul ud ur) gd
                  (RBNode.node Color.black psib pd (RBNode.node Color.red nl nd nr))) = true :=
                noRR_node_red.mpr ⟨rfl, rfl,
                  noRR_node_black.mpr ⟨hulRR, hurRR⟩,
                  noRR_node_black.mpr ⟨hpsibRR, hnr⟩⟩
              obtain ⟨r, hfix, hr1, hr2, hr3⟩ :=
                ih gp
                (RBNode.node Color.red (RBNode.node Color.black ul ud ur) gd (RBNode.node Color.black psib pd (RBNode.node Color.red nl nd nr)))
                (h + 1) H hdgp rfl hNRR hN hgpRR htbgp hpbh3
              refine ⟨r, by simp only [fixup]; exact hfix, hr1, hr2, ?_⟩
              rw [hr3]
              simp only [UpPath.plug]
              exact plug_inorder_congr gp (by simp [inorder, List.append_assoc])
            | black =>
              -- mirror case 3: black uncle, outer child: recolor and left-rotate
              have hX : bh (RBNode.node Color.black
                  (RBNode.node Color.red (RBNode.node Color.black ul ud ur) gd psib) pd
                  (RBNode.node Color.red nl nd nr)) = some (h + 1) := by
                have hinner : bh (RBNode.node Color.red
                    (RBNode.node Color.black ul ud ur) gd psib) = some h := by
                  simpa [colVal] using bh_node_some hbhU hbhpsib
                simpa [colVal] using bh_node_some hinner hbh
              have hXRR : noRR (RBNode.node Color.black
                  (RBNode.node Color.red (RBNode.node Color.black ul ud ur) gd psib) pd
                  (RBNode.node Color.red nl nd nr)) = true :=
                noRR_node_black.mpr
                  ⟨noRR_node_red.mpr ⟨rfl, hpsibBlack, hURR, hpsibRR⟩, hnr⟩
              refine ⟨_, by simp [fixup], (plug_noRR gp _).mpr ⟨hXRR, hgpRR, fun _ => rfl⟩,
                ?_, ?_⟩
              · rw [plug_bh, hX]
                simpa using hpbh3
              · simp only [UpPath.plug]
                exact plug_inorder_congr gp (by simp [inorder, List.append_assoc])
          | nil =>
            have hX : bh (RBNode.node Color.black
                (RBNode.node Color.red RBNode.nil gd psib) pd
                (RBNode.node Color.red nl nd nr)) = some (h + 1) := by
              have hinner : bh (RBNode.node Color.red RBNode.nil gd psib) = some h := by
                simpa [colVal] using bh_node_some hbhU hbhpsib
              simpa [colVal] using bh_node_some hinner hbh
            have hXRR : noRR (RBNode.node Color.black
                (RBNode.node Color.red RBNode.nil gd psib) pd
                (RBNode.node Color.red nl nd nr)) = true :=
              noRR_node_black.mpr
                ⟨noRR_node_red.mpr ⟨rfl, hpsibBlack, hURR, hpsibRR⟩, hnr⟩
            refine ⟨_, by simp [fixup], (plug_noRR gp _).mpr ⟨hXRR, hgpRR, fun _ => rfl⟩,
              ?_, ?_⟩
            · rw [plug_bh, hX]
              simpa using hpbh3
            · simp only [UpPath.plug]
              exact plug_inorder_congr gp (by simp [inorder, List.append_assoc])

/-! ## The BST layer: attachment, lookup, extremes -/

theorem bstAttach_mem (t : RBNode) (k : Int) (m : RBNode) (x : Int) :
    x ∈ inorder (bstAttach t k m) ↔ x ∈ inorder m ∨ x ∈ inorder t := by
  induction t with
  | nil => simp [bstAttach, inorder]
  | node c l d r ihl ihr =>
    rw [bstAttach]
    by_cases hk : k < d
    · rw [if_pos hk]
      simp only [inorder, List.mem_append, List.mem_cons, ihl]
      tauto
    · rw [if_neg hk]
      simp only [inorder, List.mem_append, List.mem_cons, ihr]
      tauto

theorem bstAttach_length (t : RBNode) (k : Int) (m : RBNode) :
    (inorder (bstAttach t k m)).length =
      (inorder m).length + (inorder t).length := by
  induction t with
  | nil => simp [bstAttach, inorder]
  | node c l d r ihl ihr =>
    rw [bstAttach]
    by_cases hk : k < d
    · rw [if_pos hk]; simp [inorder, ihl]; omega
    · rw [if_neg hk]; simp [inorder, ihr]; omega

theorem descend_plug :
    ∀ (t : RBNode) (k : Int) (p : UpPath) (m : RBNode),
      UpPath.plug m (descend t k p) = UpPath.plug (bstAttach t k m) p := by
  intro t
  induction t with
  | nil => intro k p m; simp [descend, bstAttach]
  | node c l d r ihl ihr =>
    intro k p m
    rw [descend, bstAttach]
    by_cases hk : k < d
    · rw [if_pos hk, if_pos hk, ihl, UpPath.plug]
    · rw [if_neg hk, if_neg hk, ihr, UpPath.plug]

theorem bstAttach_sorted {t : RBNode} {k : Int}
    (hs : (inorder t).Sorted (· < ·)) (hk : k ∉ inorder t) :
    (inorder (bstAttach t k
      (RBNode.node Color.red RBNode.nil k RBNode.nil))).Sorted (· < ·) := by
  induction t with
  | nil => simp [bstAttach, inorder]
  | node c l d r ihl ihr =>
    rw [inorder, List.Sorted, List.pairwise_append] at hs
    obtain ⟨hIl, hdIr, hcross⟩ := hs
    rw [List.pairwise_cons] at hdIr
    obtain ⟨hdlt, hIr⟩ := hdIr
    rw [inorder] at hk
    simp only [List.mem_append, List.mem_cons, not_or] at hk
    obtain ⟨hk1, hk2, hk3⟩ := hk
    rw [bstAttach]
    by_cases hkd : k < d
    · rw [if_pos hkd]
      rw [inorder, List.Sorted, List.pairwise_append]
      refine ⟨ihl hIl hk1, List.pairwise_cons.mpr ⟨hdlt, hIr⟩, ?_⟩
      intro a ha b hb
      rw [bstAttach_mem] at ha
      simp only [inorder, List.mem_cons, List.not_mem_nil, or_false, false_or,
        List.mem_append] at ha
      rcases List.mem_cons.mp hb with rfl | hb
      · rcases ha with rfl | ha
        · exact hkd
        · exact hcross a ha b (by simp)
      · rcases ha with rfl | ha
        · exact lt_trans hkd (hdlt b hb)
        · exact hcross a ha b (by simp [hb])
    · rw [if_neg hkd]
      have hdk : d < k := by
        rcases lt_trichotomy k d with h | h | h
        · exact absurd h hkd
        · exact absurd h hk2
        · exact h
      rw [inorder, List.Sorted, List.pairwise_append]
      refine ⟨hIl, ?_, ?_⟩
      · rw [List.pairwise_cons]
        refine ⟨?_, ihr hIr hk3⟩
        intro b hb
        rw [bstAttach_mem] at hb
        simp only [inorder, List.mem_cons, List.not_mem_nil, or_false, false_or,
          List.mem_append] at hb
        rcases hb with rfl | hb
        · exact hdk
        · exact hdlt b hb
      · intro a ha b hb
        rcases List.mem_cons.mp hb with rfl | hb
        · exact hcross a ha b (by simp)
        · rw [bstAttach_mem] at hb
          simp only [inorder, List.mem_cons, List.not_mem_nil, or_false, false_or,
            List.mem_append] at hb
          rcases hb with rfl | hb
          · exact lt_trans (hcross a ha d (by simp)) hdk
          · exact hcross a ha b (by simp [hb])

theorem get_isSome_iff {t : RBNode} (hs : (inorder t).Sorted (· < ·))
    (k : Int) : (get t k).isSome = true ↔ k ∈ inorder t := by
  induction t with
  | nil => simp [RBNode.get, inorder]
  | node c l d r ihl ihr =>
    rw [inorder, List.Sorted, List.pairwise_append] at hs
    obtain ⟨hIl, hdIr, hcross⟩ := hs
    rw [List.pairwise_cons] at hdIr
    obtain ⟨hdlt, hIr⟩ := hdIr
    rw [RBNode.get]
    by_cases hkd : k = d
    · subst hkd
      simp [inorder]
    · rw [if_neg hkd]
      by_cases hlt : k < d
      · rw [if_pos hlt]
        rw [ihl hIl]
        simp only [inorder, List.mem_append, List.mem_cons]
        constructor
        · exact fun h => Or.inl h
        · rintro (h | rfl | h)
          · exact h
          · exact absurd rfl hkd
          · exact absurd (hdlt k h) (by omega)
      · rw [if_neg hlt]
        have hdk : d < k := by
          rcases lt_trichotomy k d with h | h | h
          · exact absurd h hlt
          · exact absurd h hkd
          · exact h
        rw [ihr hIr]
        simp only [inorder, List.mem_append, List.mem_cons]
        constructor
        · exact fun h => Or.inr (Or.inr h)
        · rintro (h | rfl | h)
          · exact absurd (hcross k h d (by simp)) (by omega)
          · exact absurd rfl hkd
          · exact h

theorem leftmost_min {t : RBNode} (hs : (inorder t).Sorted (· < ·))
    (ht : t ≠ RBNode.nil) :
    ∃ m, leftmost t = some m ∧ m ∈ inorder t ∧
      ∀ x ∈ inorder t, m ≤ x := by
  induction t with
  | nil => exact absurd rfl ht
  | node c l d r ihl ihr =>
    rw [inorder, List.Sorted, List.pairwise_append] at hs
    obtain ⟨hIl, hdIr, hcross⟩ := hs
    rw [List.pairwise_cons] at hdIr
    obtain ⟨hdlt, hIr⟩ := hdIr
    cases l with
    | nil =>
      refine ⟨d, by rw [leftmost], by simp [inorder], ?_⟩
      intro x hx
      rw [inorder] at hx
      simp only [inorder, List.mem_append, List.mem_cons,
        List.not_mem_nil, false_or] at hx
      rcases hx with rfl | hx
      · exact le_refl x
      · exact le_of_lt (hdlt x hx)
    | node c' l' d' r' =>
      obtain ⟨m, hm1, hm2, hm3⟩ := ihl hIl (by simp)
      refine ⟨m, by rw [leftmost]; exact hm1, ?_, ?_⟩
      · rw [inorder]
        simp only [List.mem_append, List.mem_cons]
        exact Or.inl hm2
      · intro x hx
        rw [inorder] at hx
        simp only [List.mem_append, List.mem_cons] at hx
        rcases hx with hx | rfl | hx
        · exact hm3 x hx
        · exact le_of_lt (hcross m hm2 x (by simp))
        · exact le_of_lt (hcross m hm2 x (by simp [hx]))

theorem rightmost_max {t : RBNode} (hs : (inorder t).Sorted (· < ·))
    (ht : t ≠ RBNode.nil) :
    ∃ m, rightmost t = some m ∧ m ∈ inorder t ∧
      ∀ x ∈ inorder t, x ≤ m := by
  induction t with
  | nil => exact absurd rfl ht
  | node c l d r ihl ihr =>
    rw [inorder, List.Sorted, List.pairwise_append] at hs
    obtain ⟨hIl, hdIr, hcross⟩ := hs
    rw [List.pairwise_cons] at hdIr
    obtain ⟨hdlt, hIr⟩ := hdIr
    cases r with
    | nil =>
      refine ⟨d, by rw [rightmost], by simp [inorder], ?_⟩
      intro x hx
      rw [inorder] at hx
      simp only [inorder, List.mem_append, List.mem_cons,
        List.not_mem_nil, or_false] at hx
      rcases hx with hx | rfl
      · exact le_of_lt (hcross x hx d (by simp))
      · exact le_refl x
    | node c' l' d' r' =>
      obtain ⟨m, hm1, hm2, hm3⟩ := ihr hIr (by simp)
      have hdm : d < m := hdlt m hm2
      refine ⟨m, by rw [rightmost]; exact hm1, ?_, ?_⟩
      · rw [inorder]
        simp only [List.mem_append, List.mem_cons]
        exact Or.inr (Or.inr hm2)
      · intro x hx
        rw [inorder] at hx
        simp only [List.mem_append, List.mem_cons] at hx
        rcases hx with hx | rfl | hx
        · exact le_of_lt (lt_trans (hcross x hx d (by simp)) hdm)
        · exact le_of_lt hdm
        · exact hm3 x hx

/-! ## `Insert` correctness -/

theorem copyOf_id (t : RBNode) : copyOf t = t := by
  induction t with
  | nil => rfl
  | node c l d r ihl ihr => simp [copyOf, ihl, ihr]

theorem insert_empty (t : RedBlackTree) (k : Int) (h : t.root = RBNode.nil) :
    t.Insert k = some (Except.ok
      ⟨RBNode.node Color.black RBNode.nil k RBNode.nil, t.numItems + 1⟩) := by
  simp [RedBlackTree.Insert, h]

theorem insert_dup {t : RedBlackTree} {k : Int} (hv : t.Valid)
    (hk : k ∈ inorder t.root) :
    t.Insert k = some (Except.error "Duplicate value.") := by
  obtain ⟨-, -, -, hsort, -⟩ := hv
  have hcontains : t.Contains k = true := by
    rw [RedBlackTree.Contains]
    exact (get_isSome_iff hsort k).mpr hk
  cases htroot : t.root with
  | nil => rw [htroot] at hk; simp [inorder] at hk
  | node c l d r => simp [RedBlackTree.Insert, htroot, hcontains]

theorem insert_not_mem {t : RedBlackTree} {k : Int} (hv : t.Valid)
    (hk : k ∉ inorder t.root) :
    ∃ t', t.Insert k = some (Except.ok t') ∧ t'.Valid ∧
      t'.numItems = t.numItems + 1 ∧
      (∀ x, x ∈ inorder t'.root ↔ x = k ∨ x ∈ inorder t.root) := by
  obtain ⟨hroot, hnoRR, hbh, hsort, hcount⟩ := hv
  cases htroot : t.root with
  | nil =>
    refine ⟨⟨RBNode.node Color.black RBNode.nil k RBNode.nil, t.numItems + 1⟩,
      insert_empty t k htroot, ⟨rfl, by simp [noRR, rootCol], by simp [bh],
        by simp [inorder], ?_⟩, rfl, ?_⟩
    · rw [htroot, inorder] at hcount
      simp [inorder, hcount]
    · intro x
      simp [inorder]
  | node c l d r =>
    have hcontains : t.Contains k = false := by
      rw [RedBlackTree.Contains]
      rw [Bool.eq_false_iff]
      intro hcon
      exact hk ((get_isSome_iff hsort k).mp hcon)
    obtain ⟨h0, hbh0⟩ := Option.isSome_iff_exists.mp hbh
    have hn0RR : noRR (RBNode.node Color.red RBNode.nil k RBNode.nil) = true := by
      simp [noRR, rootCol]
    have hn0bh : bh (RBNode.node Color.red RBNode.nil k RBNode.nil) = some 0 := by
      simp [bh, colVal]
    obtain ⟨hrrP, hpbhP⟩ := descend_props t.root k UpPath.root h0 h0 hnoRR hbh0
      (by intro hcontra; simp [UpPath.pcol] at hcontra)
      trivial (by rw [UpPath.pbh])
    have htbP : UpPath.topBlack (descend t.root k UpPath.root) :=
      descend_topBlack t.root k UpPath.root (fun _ => hroot) rfl
    obtain ⟨r', hfix, hrRR, hrbh, hrin⟩ := fixup_ok
      (UpPath.depth (descend t.root k UpPath.root))
      (descend t.root k UpPath.root)
      (RBNode.node Color.red RBNode.nil k RBNode.nil) 0 h0
      (le_refl _) rfl hn0RR hn0bh hrrP htbP hpbhP
    have hattach : inorder r' =
        inorder (bstAttach t.root k (RBNode.node Color.red RBNode.nil k RBNode.nil)) := by
      rw [hrin, descend_plug]
      rw [UpPath.plug]
    have hmem : ∀ x, x ∈ inorder r' ↔ x = k ∨ x ∈ inorder t.root := by
      intro x
      rw [hattach, bstAttach_mem]
      simp [inorder]
    have hrne : r' ≠ RBNode.nil := by
      intro hcontra
      have : (k : Int) ∈ inorder r' := (hmem k).mpr (Or.inl rfl)
      rw [hcontra] at this
      simp [inorder] at this
    refine ⟨⟨blacken (blacken r'), t.numItems + 1⟩, ?_, ?_, rfl, ?_⟩
    · rw [RedBlackTree.Insert]
      rw [htroot] at hfix ⊢
      simp only [hcontains, Bool.false_eq_true, if_false]
      rw [insertFixUp, hfix]
      rfl
    · refine ⟨?_, noRR_blacken (noRR_blacken hrRR), ?_, ?_, ?_⟩
      · show rootCol (blacken (blacken r')) = Color.black
        have h1 : blacken r' ≠ RBNode.nil := by
          cases r' with
          | nil => exact absurd rfl hrne
          | node c2 l2 d2 r2 => simp [blacken]
        exact rootCol_blacken h1
      · show (bh (blacken (blacken r'))).isSome
        exact bh_blacken_isSome (bh_blacken_isSome (by rw [hrbh]; rfl))
      · show (inorder (blacken (blacken r'))).Sorted (· < ·)
        rw [inorder_blacken, inorder_blacken, hattach]
        exact bstAttach_sorted hsort hk
      · show t.numItems + 1 = (inorder (blacken (blacken r'))).length
        rw [inorder_blacken, inorder_blacken, hattach, bstAttach_length]
        rw [hcount]
        simp [inorder]
        omega
    · intro x
      show x ∈ inorder (blacken (blacken r')) ↔ _
      rw [inorder_blacken, inorder_blacken, ← htroot]
      exact hmem x

theorem reachable_valid {t : RedBlackTree} (h : t.Reachable) : t.Valid := by
  induction h with
  | mkEmpty =>
    exact ⟨rfl, rfl, by simp [bh, RedBlackTree.mkEmpty],
      by simp [inorder, RedBlackTree.mkEmpty],
      by simp [inorder, RedBlackTree.mkEmpty]⟩
  | mkSingle d =>
    exact ⟨rfl, by simp [noRR, RedBlackTree.mkSingle],
      by simp [bh, RedBlackTree.mkSingle],
      by simp [inorder, RedBlackTree.mkSingle],
      by simp [inorder, RedBlackTree.mkSingle]⟩
  | copy h ih =>
    obtain ⟨h1, h2, h3, h4, h5⟩ := ih
    exact ⟨by simpa [RedBlackTree.copy, copyOf_id] using h1,
      by simpa [RedBlackTree.copy, copyOf_id] using h2,
      by simpa [RedBlackTree.copy, copyOf_id] using h3,
      by simpa [RedBlackTree.copy, copyOf_id] using h4,
      by simpa [RedBlackTree.copy, copyOf_id] using h5⟩
  | insert h hins ih =>
    rename_i t0 t1 k
    by_cases hk : k ∈ inorder t0.root
    · rw [insert_dup ih hk] at hins
      simp at hins
    · obtain ⟨t'', h1, h2, -, -⟩ := insert_not_mem ih hk
      rw [h1] at hins
      simp only [Option.some_inj] at hins
      obtain rfl : t'' = t1 := by
        cases hins
        rfl
      exact h2

/-! ## Rendering -/

theorem inorderPairs_fst (t : RBNode) :
    (inorderPairs t).map Prod.fst = inorder t := by
  induction t with
  | nil => rfl
  | node c l d r ihl ihr => simp [inorderPairs, inorder, ihl, ihr]

theorem toInfixString_foldr (t : RBNode) :
    toInfixString t = ((inorderPairs t).map nodeString).foldr (· ++ ·) "" := by
  have key : ∀ A B : List String,
      (A ++ B).foldr (· ++ ·) "" = A.foldr (· ++ ·) "" ++ B.foldr (· ++ ·) "" := by
    intro A B
    induction A with
    | nil => simp [String.empty_append]
    | cons a as ih => simp [ih, String.append_assoc]
  induction t with
  | nil => rfl
  | node c l d r ihl ihr =>
    rw [toInfixString, inorderPairs, List.map_append, key, ihl]
    simp only [List.map_cons, List.foldr_cons, ihr]
    rw [String.append_assoc]

/-! ## The claims -/

/-- C1: for every API-reachable tree and every key, `Insert` fails with the
duplicate-key error exactly when the key is already stored; the error is
raised before any node is allocated or linked, so the tree value is
untouched (in this pure embedding the error branch returns no tree at all).
Otherwise the insert succeeds, the stored count goes up by exactly one, and
the stored key set is the old one plus the new key. -/
theorem insert_duplicate_error_spec (t : RedBlackTree) (k : Int)
    (h : t.Reachable) :
    (t.Insert k = some (Except.error "Duplicate value.") ↔
      k ∈ inorder t.root) ∧
    (k ∉ inorder t.root →
      ∃ t', t.Insert k = some (Except.ok t') ∧
        t'.numItems = t.numItems + 1 ∧
        (∀ x, x ∈ inorder t'.root ↔ x = k ∨ x ∈ inorder t.root)) := by
  have hv := reachable_valid h
  constructor
  · constructor
    · intro he
      by_contra hk
      obtain ⟨t', h1, -, -, -⟩ := insert_not_mem hv hk
      rw [h1] at he
      simp at he
    · exact insert_dup hv
  · intro hk
    obtain ⟨t', h1, -, h3, h4⟩ := insert_not_mem hv hk
    exact ⟨t', h1, h3, h4⟩

theorem insert_duplicate_error_spec_witness :
    (RedBlackTree.mkSingle 7).Insert 7 =
      some (Except.error "Duplicate value.") :=
  (insert_duplicate_error_spec (RedBlackTree.mkSingle 7) 7
    (RedBlackTree.Reachable.mkSingle 7)).1.mpr
    (by simp [inorder, RedBlackTree.mkSingle])

/-- C2: every API-reachable tree has uniform black-height: `bh` (which
returns `none` as soon as one node has two downward paths to absent-child
slots that cross different numbers of BLACK nodes, and recursively checks
every node) succeeds on the whole tree. -/
theorem reachable_black_height_uniform (t : RedBlackTree)
    (h : t.Reachable) : (bh t.root).isSome = true :=
  (reachable_valid h).2.2.1

theorem reachable_black_height_uniform_witness :
    (bh ((⟨RBNode.node Color.black (RBNode.node Color.red RBNode.nil 10 RBNode.nil)
      20 (RBNode.node Color.red RBNode.nil 30 RBNode.nil), 3⟩ :
        RedBlackTree)).root).isSome = true := by
  have h1 : RedBlackTree.mkEmpty.Insert 10 = some (Except.ok
      ⟨RBNode.node Color.black RBNode.nil 10 RBNode.nil, 1⟩) := rfl
  have h2 : RedBlackTree.Insert ⟨RBNode.node Color.black RBNode.nil 10 RBNode.nil, 1⟩ 20 =
      some (Except.ok ⟨RBNode.node Color.black RBNode.nil 10
        (RBNode.node Color.red RBNode.nil 20 RBNode.nil), 2⟩) := rfl
  have h3 : RedBlackTree.Insert ⟨RBNode.node Color.black RBNode.nil 10
      (RBNode.node Color.red RBNode.nil 20 RBNode.nil), 2⟩ 30 =
      some (Except.ok ⟨RBNode.node Color.black
        (RBNode.node Color.red RBNode.nil 10 RBNode.nil) 20
        (RBNode.node Color.red RBNode.nil 30 RBNode.nil), 3⟩) := rfl
  exact reachable_black_height_uniform _
    (RedBlackTree.Reachable.insert (RedBlackTree.Reachable.insert
      (RedBlackTree.Reachable.insert RedBlackTree.Reachable.mkEmpty h1) h2) h3)

/-- C3: in every API-reachable tree no RED node has a RED child on either
parent-child edge. -/
theorem reachable_no_red_red (t : RedBlackTree) (h : t.Reachable) :
    noRR t.root = true :=
  (reachable_valid h).2.1

theorem reachable_no_red_red_witness :
    noRR (RedBlackTree.mkSingle 5).root = true :=
  reachable_no_red_red _ (RedBlackTree.Reachable.mkSingle 5)

/-- C4: after any sequence of public operations the tree is empty or its
root node is colored BLACK. -/
theorem reachable_root_black (t : RedBlackTree) (h : t.Reachable) :
    t.root = RBNode.nil ∨
      ∃ l d r, t.root = RBNode.node Color.black l d r := by
  have hroot := (reachable_valid h).1
  cases htroot : t.root with
  | nil => exact Or.inl rfl
  | node c l d r =>
    rw [htroot, rootCol] at hroot
    subst hroot
    exact Or.inr ⟨l, d, r, rfl⟩

theorem reachable_root_black_witness :
    (⟨RBNode.node Color.black RBNode.nil 10
        (RBNode.node Color.red RBNode.nil 20 RBNode.nil), 2⟩ :
      RedBlackTree).root = RBNode.nil ∨
    ∃ l d r, (⟨RBNode.node Color.black RBNode.nil 10
        (RBNode.node Color.red RBNode.nil 20 RBNode.nil), 2⟩ :
      RedBlackTree).root = RBNode.node Color.black l d r := by
  have h1 : RedBlackTree.mkEmpty.Insert 10 = some (Except.ok
      ⟨RBNode.node Color.black RBNode.nil 10 RBNode.nil, 1⟩) := rfl
  have h2 : RedBlackTree.Insert ⟨RBNode.node Color.black RBNode.nil 10 RBNode.nil, 1⟩ 20 =
      some (Except.ok ⟨RBNode.node Color.black RBNode.nil 10
        (RBNode.node Color.red RBNode.nil 20 RBNode.nil), 2⟩) := rfl
  exact reachable_root_black _ (RedBlackTree.Reachable.insert
    (RedBlackTree.Reachable.insert RedBlackTree.Reachable.mkEmpty h1) h2)

/-- C5: for every API-reachable tree the in-order key list is strictly
ascending, and the infix rendering is exactly the concatenation, in that
ascending key order, of the per-node renderings (so the rendering lists the
stored keys in strictly ascending order with no duplicates). -/
theorem reachable_infix_sorted (t : RedBlackTree) (h : t.Reachable) :
    (inorder t.root).Sorted (· < ·) ∧
    (inorderPairs t.root).map Prod.fst = inorder t.root ∧
    toInfixString t.root =
      ((inorderPairs t.root).map nodeString).foldr (· ++ ·) "" :=
  ⟨(reachable_valid h).2.2.2.1, inorderPairs_fst t.root,
    toInfixString_foldr t.root⟩

theorem reachable_infix_sorted_witness :
    (inorder (RedBlackTree.mkSingle 42).root).Sorted (· < ·) ∧
    (inorderPairs (RedBlackTree.mkSingle 42).root).map Prod.fst =
      inorder (RedBlackTree.mkSingle 42).root ∧
    toInfixString (RedBlackTree.mkSingle 42).root =
      ((inorderPairs (RedBlackTree.mkSingle 42).root).map nodeString).foldr
        (· ++ ·) "" :=
  reachable_infix_sorted _ (RedBlackTree.Reachable.mkSingle 42)

/-- C6: on every API-reachable tree, `GetMin`/`GetMax` fail with the
empty-tree error exactly when the tree has no root, and on a non-empty tree
they return a stored key that is a lower (resp. upper) bound of every
stored key. -/
theorem getMin_getMax_spec (t : RedBlackTree) (h : t.Reachable) :
    (t.root = RBNode.nil → t.GetMin = Except.error "Tree is empty." ∧
      t.GetMax = Except.error "Tree is empty.") ∧
    (t.root ≠ RBNode.nil → ∃ m M, t.GetMin = Except.ok m ∧
      t.GetMax = Except.ok M ∧ m ∈ inorder t.root ∧ M ∈ inorder t.root ∧
      ∀ x ∈ inorder t.root, m ≤ x ∧ x ≤ M) := by
  have hsort := (reachable_valid h).2.2.2.1
  constructor
  · intro hnil
    constructor
    · simp [RedBlackTree.GetMin, hnil, leftmost]
    · simp [RedBlackTree.GetMax, hnil, rightmost]
  · intro hne
    obtain ⟨m, hm1, hm2, hm3⟩ := leftmost_min hsort hne
    obtain ⟨M, hM1, hM2, hM3⟩ := rightmost_max hsort hne
    exact ⟨m, M, by simp [RedBlackTree.GetMin, hm1],
      by simp [RedBlackTree.GetMax, hM1], hm2, hM2,
      fun x hx => ⟨hm3 x hx, hM3 x hx⟩⟩

theorem getMin_getMax_spec_witness :
    ∃ m M,
      RedBlackTree.GetMin ⟨RBNode.node Color.black
        (RBNode.node Color.red RBNode.nil 10 RBNode.nil) 20
        (RBNode.node Color.red RBNode.nil 30 RBNode.nil), 3⟩ = Except.ok m ∧
      RedBlackTree.GetMax ⟨RBNode.node Color.black
        (RBNode.node Color.red RBNode.nil 10 RBNode.nil) 20
        (RBNode.node Color.red RBNode.nil 30 RBNode.nil), 3⟩ = Except.ok M ∧
      m ∈ inorder (RBNode.node Color.black
        (RBNode.node Color.red RBNode.nil 10 RBNode.nil) 20
        (RBNode.node Color.red RBNode.nil 30 RBNode.nil)) ∧
      M ∈ inorder (RBNode.node Color.black
        (RBNode.node Color.red RBNode.nil 10 RBNode.nil) 20
        (RBNode.node Color.red RBNode.nil 30 RBNode.nil)) ∧
      ∀ x ∈ inorder (RBNode.node Color.black
        (RBNode.node Color.red RBNode.nil 10 RBNode.nil) 20
        (RBNode.node Color.red RBNode.nil 30 RBNode.nil)),
        m ≤ x ∧ x ≤ M := by
  have h1 : RedBlackTree.mkEmpty.Insert 10 = some (Except.ok
      ⟨RBNode.node Color.black RBNode.nil 10 RBNode.nil, 1⟩) := rfl
  have h2 : RedBlackTree.Insert ⟨RBNode.node Color.black RBNode.nil 10 RBNode.nil, 1⟩ 20 =
      some (Except.ok ⟨RBNode.node Color.black RBNode.nil 10
        (RBNode.node Color.red RBNode.nil 20 RBNode.nil), 2⟩) := rfl
  have h3 : RedBlackTree.Insert ⟨RBNode.node Color.black RBNode.nil 10
      (RBNode.node Color.red RBNode.nil 20 RBNode.nil), 2⟩ 30 =
      some (Except.ok ⟨RBNode.node Color.black
        (RBNode.node Color.red RBNode.nil 10 RBNode.nil) 20
        (RBNode.node Color.red RBNode.nil 30 RBNode.nil), 3⟩) := rfl
  exact (getMin_getMax_spec _
    (RedBlackTree.Reachable.insert (RedBlackTree.Reachable.insert
      (RedBlackTree.Reachable.insert RedBlackTree.Reachable.mkEmpty h1) h2) h3)).2
    (by simp)

/-- C7: whenever a left or right rotation is performed (i.e. the pivot has
the required child on the side opposite the rotation direction, so the
source does not dereference null), the rotation changes no node's color and
preserves the in-order sequence of (key, color) pairs; it only relinks the
pivot, the promoted child and the transplanted middle subtree (the zipper
plugging in `fixup` carries the corresponding parent back-reference
updates). -/
theorem rotation_preserves_colors_and_order (n n' : RBNode) :
    (leftRotate n = some n' → inorderPairs n' = inorderPairs n) ∧
    (rightRotate n = some n' → inorderPairs n' = inorderPairs n) := by
  constructor
  · intro h
    cases n with
    | nil => simp [leftRotate] at h
    | node c a x rchild =>
      cases rchild with
      | nil => simp [leftRotate] at h
      | node rc b y t =>
        rw [leftRotate] at h
        obtain rfl : RBNode.node rc (RBNode.node c a x b) y t = n' := by
          simpa using h
        simp [inorderPairs, List.append_assoc]
  · intro h
    cases n with
    | nil => simp [rightRotate] at h
    | node c lchild x a =>
      cases lchild with
      | nil => simp [rightRotate] at h
      | node lc t y b =>
        rw [rightRotate] at h
        obtain rfl : RBNode.node lc t y (RBNode.node c b x a) = n' := by
          simpa using h
        simp [inorderPairs, List.append_assoc]

theorem rotation_preserves_colors_and_order_witness :
    leftRotate (RBNode.node Color.red RBNode.nil 1
        (RBNode.node Color.black RBNode.nil 2 RBNode.nil)) =
      some (RBNode.node Color.black
        (RBNode.node Color.red RBNode.nil 1 RBNode.nil) 2 RBNode.nil) ∧
    inorderPairs (RBNode.node Color.black
        (RBNode.node Color.red RBNode.nil 1 RBNode.nil) 2 RBNode.nil) =
      inorderPairs (RBNode.node Color.red RBNode.nil 1
        (RBNode.node Color.black RBNode.nil 2 RBNode.nil)) :=
  ⟨rfl, (rotation_preserves_colors_and_order
    (RBNode.node Color.red RBNode.nil 1
      (RBNode.node Color.black RBNode.nil 2 RBNode.nil))
    (RBNode.node Color.black
      (RBNode.node Color.red RBNode.nil 1 RBNode.nil) 2 RBNode.nil)).1 rfl⟩

/-- C8 (counterexample): inserting 10, 20, 30 into an empty tree does NOT
produce the infix rendering `" B10  R20  B30 "` claimed by the spec — the
root 20 is BLACK and the leaves 10, 30 are RED, so the rendering tags 10 and
30 with `R` and 20 with `B`. -/
theorem insert_10_20_30_infix_counterexample :
    (RedBlackTree.mkEmpty.insertMany [10, 20, 30]).map
      (fun t => toInfixString t.root) ≠ some " B10  R20  B30 " := by
  decide

/-- C8 (amended): inserting 10, 20, 30 in that order into an empty tree
produces the tree with 20 as BLACK root and 10 and 30 as RED leaves, whose
infix rendering is `" R10  B20  R30 "`, with `GetMin = 10` and
`GetMax = 30`. -/
theorem insert_10_20_30_spec :
    RedBlackTree.mkEmpty.insertMany [10, 20, 30] =
      some ⟨RBNode.node Color.black
        (RBNode.node Color.red RBNode.nil 10 RBNode.nil) 20
        (RBNode.node Color.red RBNode.nil 30 RBNode.nil), 3⟩ ∧
    (RedBlackTree.mkEmpty.insertMany [10, 20, 30]).map
      (fun t => toInfixString t.root) = some " R10  B20  R30 " ∧
    (RedBlackTree.mkEmpty.insertMany [10, 20, 30]).map
      (fun t => t.GetMin) = some (Except.ok 10) ∧
    (RedBlackTree.mkEmpty.insertMany [10, 20, 30]).map
      (fun t => t.GetMax) = some (Except.ok 30) :=
  ⟨rfl, by decide, rfl, rfl⟩

/-- C9: copy construction duplicates the node graph preserving all keys and
colors and the stored count — `copyOf` rebuilds a structurally identical
tree, so every traversal rendering agrees with the original, and a
subsequent `Insert` behaves on the copy exactly as it would on the
original. In this pure embedding trees are immutable values, so the
spec's heap independence (mutating the copy cannot affect the original) is
inherent: `Insert` returns a fresh value and never modifies its argument. -/
theorem copy_constructor_spec (t : RedBlackTree) (k : Int) :
    (t.copy).root = t.root ∧ (t.copy).numItems = t.numItems ∧
    toInfixString (t.copy).root = toInfixString t.root ∧
    toPrefixString (t.copy).root = toPrefixString t.root ∧
    toPostfixString (t.copy).root = toPostfixString t.root ∧
    (t.copy).Insert k = t.Insert k := by
  simp [RedBlackTree.copy, copyOf_id]

/-- C10: copy-constructing from an empty tree yields an empty tree: the
copy's root is absent (`CopyOf` of an absent node is absent), its stored
count is 0, and all three traversal renderings are the empty string. -/
theorem copy_empty_spec (t : RedBlackTree) (h : t.Reachable)
    (hnil : t.root = RBNode.nil) :
    (t.copy).root = RBNode.nil ∧ (t.copy).numItems = 0 ∧
    toInfixString (t.copy).root = "" ∧
    toPrefixString (t.copy).root = "" ∧
    toPostfixString (t.copy).root = "" := by
  have hc0 : t.numItems = 0 := by
    have hcount := (reachable_valid h).2.2.2.2
    rw [hnil] at hcount
    simpa [inorder] using hcount
  refine ⟨?_, ?_, ?_, ?_, ?_⟩ <;>
    simp [RedBlackTree.copy, hnil, hc0, copyOf, toInfixString,
      toPrefixString, toPostfixString]

theorem copy_empty_spec_witness :
    (RedBlackTree.mkEmpty.copy).root = RBNode.nil ∧
    (RedBlackTree.mkEmpty.copy).numItems = 0 ∧
    toInfixString (RedBlackTree.mkEmpty.copy).root = "" ∧
    toPrefixString (RedBlackTree.mkEmpty.copy).root = "" ∧
    toPostfixString (RedBlackTree.mkEmpty.copy).root = "" :=
  copy_empty_spec RedBlackTree.mkEmpty RedBlackTree.Reachable.mkEmpty rfl
